import Mathlib

/-!
# Verification of the `scraperrs` crawler (src/main.rs)

This file is a shallow embedding, in Lean 4, of the core of the `scraperrs`
web crawler: the HTML link/record extractors, the timeout-retrying fetcher
`scrap_url`, the crawl loop of `main`, and the CSV emission guard.

Modelling conventions:
* HTML documents are modelled as already-parsed DOM forests (the `scraper`
  crate's parsing of the body string is an external library and is not part of
  the verified core); CSS attribute selectors such as `div[class="..."]` are
  modelled by exact tag-name and `class`-attribute equality, and element
  traversal is pre-order document order, as in the `scraper` crate.
* Rust byte indices into strings (`str::find`, `String::drain`) are modelled
  as character indices; every index the source computes (a `find` result plus
  the matched label's byte length) lies on a UTF-8 character boundary, so the
  two views decompose the string identically.
* The network is modelled as an environment assigning an outcome to each
  attempt (for the fetcher) or a parsed document to each URL (for the engine),
  with `none` standing for a fetch that fails after the fetcher's retries.
* `CrawlState.enqLog` and `CrawlState.fetchLog` are ghost instrumentation:
  `enqLog` records every URL ever placed on the frontier (the seed included)
  and `fetchLog` records every URL popped and fetched; neither influences the
  computed frontier, visited list, or records.
-/

/-! ## Strings: Rust `str::find`, `trim`, `starts_with` -/

/-- First index (in characters) at which `needle` occurs as a contiguous
substring of the list; models Rust `str::find` with a string pattern. -/
def listFind (needle : List Char) : List Char → Option Nat
  | [] => if needle.isPrefixOf ([] : List Char) then some 0 else none
  | c :: t =>
      if needle.isPrefixOf (c :: t) then some 0
      else (listFind needle t).map (· + 1)

/-- Rust `hay.find(needle)`, at character granularity. -/
def strFind (hay needle : String) : Option Nat :=
  listFind needle.toList hay.toList

/-- Strip leading and trailing whitespace characters; models Rust `str::trim`. -/
def trimChars (l : List Char) : List Char :=
  ((l.dropWhile Char.isWhitespace).reverse.dropWhile Char.isWhitespace).reverse

/-- Rust `s.trim()` packaged on `String`. -/
def rustTrim (s : String) : String := String.mk (trimChars s.toList)

/-- Rust `s.starts_with(p)`. -/
def rustStartsWith (s p : String) : Bool := p.toList.isPrefixOf s.toList

/-- The absolute-URL filter used by both link extractors:
`["http://", "https://"].map(|p| href.starts_with(p)).reduce(|acc, e| acc || e)`. -/
def isAbsoluteHref (href : String) : Bool :=
  rustStartsWith href "http://" || rustStartsWith href "https://"

/-! ## DOM model and selectors -/

/-- A parsed HTML node: either a text node or an element with a tag name, an
attribute list and child nodes.  A document is a forest `List Node`. -/
inductive Node where
  | text (s : String) : Node
  | elem (tag : String) (attrs : List (String × String)) (children : List Node) : Node

/-- Attributes of a node (text nodes have none). -/
def attrsOf : Node → List (String × String)
  | Node.text _ => []
  | Node.elem _ as _ => as

/-- Children of a node (text nodes have none). -/
def childrenOf : Node → List Node
  | Node.text _ => []
  | Node.elem _ _ cs => cs

/-- Does the node match the simple selector `tag[class="cls"]` (or bare `tag`
when `cls = none`)?  Attribute-equality semantics, as in the source's
selectors like `a[class="lm"]`. -/
def nodeMatches (tag : String) (cls : Option String) : Node → Bool
  | Node.text _ => false
  | Node.elem t as _ =>
      t == tag && (match cls with
        | none => true
        | some c => as.lookup "class" == some c)

mutual

/-- All elements of the subtree rooted at the node (the node included) that
match the selector, in pre-order document order; models `scraper`'s
`select` iterator. -/
def selectNode (tag : String) (cls : Option String) : Node → List Node
  | Node.text s => if nodeMatches tag cls (Node.text s) then [Node.text s] else []
  | Node.elem t as cs =>
      (if nodeMatches tag cls (Node.elem t as cs) then [Node.elem t as cs] else [])
        ++ selectForest tag cls cs

/-- `selectNode` over a forest, left to right. -/
def selectForest (tag : String) (cls : Option String) : List Node → List Node
  | [] => []
  | n :: ns => selectNode tag cls n ++ selectForest tag cls ns

end

mutual

/-- Concatenation, in document order, of all descendant text nodes; models
`ElementRef::text().collect::<Vec<_>>().join("")`. -/
def textNode : Node → String
  | Node.text s => s
  | Node.elem _ _ cs => textForest cs

/-- `textNode` over a forest, left to right. -/
def textForest : List Node → String
  | [] => ""
  | n :: ns => textNode n ++ textForest ns

end

/-- `a.value().attr(name)`: the first attribute with the given name. -/
def nodeAttr (n : Node) (name : String) : Option String :=
  (attrsOf n).lookup name

/-- `a.value().attr("href").unwrap_or("")`. -/
def anchorHref (a : Node) : String := (nodeAttr a "href").getD ""

/-! ## Link extractors -/

/-- `extract_pagination_links`: anchors nested inside a
`ul[class="pager lfr-pagination-buttons"]` container whose `href` starts with
`http://` or `https://`, in document order. -/
def extract_pagination_links (doc : List Node) : List String :=
  (selectForest "ul" (some "pager lfr-pagination-buttons") doc).map
      (fun ul => (selectForest "a" none (childrenOf ul)).filterMap
        (fun a => if isAbsoluteHref (anchorHref a) then some (anchorHref a) else none))
    |>.flatten

/-- `extract_enterprise_links`: anchors `a[class="lm"]` anywhere in the
document whose `href` starts with `http://` or `https://`, in document
order. -/
def extract_enterprise_links (doc : List Node) : List String :=
  (selectForest "a" (some "lm") doc).filterMap
    (fun a => if isAbsoluteHref (anchorHref a) then some (anchorHref a) else none)

/-! ## Record extractor -/

/-- The record type of `struct Enterprise`. -/
structure Enterprise where
  name : String
  address : String
  phone : String
  email : String
  contact_person : String
deriving DecidableEq

/-- `Enterprise::new()`: all five fields empty. -/
def Enterprise.new : Enterprise := ⟨"", "", "", "", ""⟩

/-- One label lookup of `extract_enterprise_data`, mirroring
`if let Some(index) = text.find(label) { field = text.drain(index + label.len()..).trim() }`:
on a hit the field becomes the trimmed tail after the label and — because
`String::drain` removes the drained range — the working text shrinks to the
part up to and including the label; on a miss both are unchanged. -/
def drainField (text label old : String) : String × String :=
  match strFind text label with
  | some i =>
      (String.mk (trimChars (text.toList.drop (i + label.toList.length))),
        String.mk (text.toList.take (i + label.toList.length)))
  | none => (old, text)

/-- The body of the `for node in card.select(&description_selector)` loop:
the four label lookups applied in the source's fixed order, each one reading
the working text left by the previous one. -/
def processDescription (e : Enterprise) (blob : String) : Enterprise :=
  let a := drainField blob "Domicilio" e.address
  let p := drainField a.2 "Teléfono" e.phone
  let m := drainField p.2 "Correo electrónico" e.email
  let c := drainField m.2 "Persona de contacto" e.contact_person
  { e with address := a.1, phone := p.1, email := m.1, contact_person := c.1 }

/-- The matching detail cards `div[class="socios-panel-lat"]` of a document. -/
def cardsOf (doc : List Node) : List Node :=
  selectForest "div" (some "socios-panel-lat") doc

/-- The text blobs of the description blocks `div[class="socios-descripcion"]`
inside a card, in document order. -/
def cardDescriptionBlobs (card : Node) : List String :=
  (selectForest "div" (some "socios-descripcion") (childrenOf card)).map textNode

/-- The name field: text of every `h2[class="tit-soc"]` inside the card,
concatenated, then trimmed. -/
def cardName (card : Node) : String :=
  rustTrim (String.join ((selectForest "h2" (some "tit-soc") (childrenOf card)).map textNode))

/-- `extract_enterprise_data`: `None` when no detail card matches, otherwise
one record built from the first card. -/
def extract_enterprise_data (doc : List Node) : Option Enterprise :=
  match cardsOf doc with
  | [] => none
  | card :: _ =>
      some ((cardDescriptionBlobs card).foldl processDescription
        { Enterprise.new with name := cardName card })

/-! ## Fetcher (`scrap_url`) -/

/-- Outcome of one HTTP attempt, as the fetcher's retry loop distinguishes
them: a successful body, an error for which `err.is_timeout()` holds, or any
other error. -/
inductive Attempt where
  | success (body : String) : Attempt
  | timeoutErr : Attempt
  | failure (msg : String) : Attempt
deriving DecidableEq

/-- Result of `scrap_url`: `Ok(body)`, an immediately propagated non-timeout
error, or the terminal `io::ErrorKind::TimedOut` error after the retry budget
is exhausted. -/
inductive FetchResult where
  | ok (body : String) : FetchResult
  | err (msg : String) : FetchResult
  | timedOut : FetchResult
deriving DecidableEq

/-- The `for _ in 0..retries_on_timeout` loop of `scrap_url`: attempt `i`
is drawn from the environment; success returns the body, a timeout continues
with the next attempt, any other failure returns immediately; an exhausted
budget yields the terminal timeout error. -/
def scrapLoop (env : Nat → Attempt) : Nat → Nat → FetchResult
  | _, 0 => FetchResult.timedOut
  | i, n + 1 =>
      match env i with
      | Attempt.success b => FetchResult.ok b
      | Attempt.timeoutErr => scrapLoop env (i + 1) n
      | Attempt.failure m => FetchResult.err m

/-- `scrap_url` for a fixed URL, the per-attempt network behaviour abstracted
into `env` (the `timeout` argument only parameterizes the HTTP call itself and
is dropped; `assert!(timeout > 0)` and `assert!(retries_on_timeout > 0)` are
preconditions carried by the theorems). -/
def scrap_url (env : Nat → Attempt) (retries_on_timeout : Nat) : FetchResult :=
  scrapLoop env 0 retries_on_timeout

/-! ## Crawl engine (the loop of `main`) -/

/-- The mutable state of `main`'s crawl loop.  `frontier` is `urls_to_visit`
(a FIFO deque: pop at the head, push at the tail), `visited` is `url_visited`,
`enterprises` the collected records.  `enqLog` and `fetchLog` are ghost
instrumentation (see the file header). -/
structure CrawlState where
  frontier : List String
  visited : List String
  enterprises : List Enterprise
  enqLog : List String
  fetchLog : List String
deriving DecidableEq

/-- The links a URL's page contributes: pagination links then enterprise
links, empty when the fetch fails. -/
def pageLinks (web : String → Option (List Node)) (u : String) : List String :=
  match web u with
  | some dom => extract_pagination_links dom ++ extract_enterprise_links dom
  | none => []

/-- The `for link in links` loop of `main`: push each link at the frontier
tail if and only if it is in neither `url_visited` nor the current
`urls_to_visit`; the second component is the ghost enqueue log. -/
def enqueueAll (visited : List String) :
    List String × List String → List String → List String × List String
  | p, [] => p
  | (fr, log), l :: ls =>
      if l ∈ visited ∨ l ∈ fr then enqueueAll visited (fr, log) ls
      else enqueueAll visited (fr ++ [l], log ++ [l]) ls

/-- One iteration of the crawl loop on popped URL `url` with remaining
frontier `rest`: on fetch success enqueue the extracted links and collect the
record if any; on failure only log; in both cases push `url` onto
`url_visited` afterwards. -/
def processUrl (web : String → Option (List Node)) (s : CrawlState)
    (url : String) (rest : List String) : CrawlState :=
  match web url with
  | some dom =>
      let frlog := enqueueAll s.visited (rest, s.enqLog)
        (extract_pagination_links dom ++ extract_enterprise_links dom)
      let ents :=
        match extract_enterprise_data dom with
        | some e => s.enterprises ++ [e]
        | none => s.enterprises
      ⟨frlog.1, s.visited ++ [url], ents, frlog.2, s.fetchLog ++ [url]⟩
  | none => ⟨rest, s.visited ++ [url], s.enterprises, s.enqLog, s.fetchLog ++ [url]⟩

/-- The `while urls_to_visit.len() > 0` loop, with explicit fuel bounding the
number of iterations: stop on empty frontier; after an iteration stop when
`max_records > 0 && enterprises.len() >= max_records`. -/
def crawlRun (web : String → Option (List Node)) (maxRecords : Nat) :
    Nat → CrawlState → CrawlState
  | 0, s => s
  | fuel + 1, s =>
      match s.frontier with
      | [] => s
      | url :: rest =>
          let s' := processUrl web s url rest
          if 0 < maxRecords ∧ maxRecords ≤ s'.enterprises.length then s'
          else crawlRun web maxRecords fuel s'

/-- The initial state of `main`: the frontier holds the seed URL, everything
else is empty (the seed counts as enqueued in the ghost log). -/
def initState (seed : String) : CrawlState := ⟨[seed], [], [], [seed], []⟩

/-! ## CSV sink -/

/-- `static CSV_COLUMNS_LABALS`. -/
def CSV_COLUMNS_LABALS : List String :=
  ["Nombre", "Domicilio", "Teléfono", "Correo electrónico", "Persona de contacto"]

/-- `serde` serializes an `Enterprise` as its fields in declaration order. -/
def enterpriseRow (e : Enterprise) : List String :=
  [e.name, e.address, e.phone, e.email, e.contact_person]

/-- The rows handed to the CSV writer after the loop:
`if enterprises.len() > 0`, a header row followed by one row per record;
otherwise nothing at all. -/
def csvOutput (enterprises : List Enterprise) : List (List String) :=
  if enterprises.length > 0 then
    CSV_COLUMNS_LABALS :: enterprises.map enterpriseRow
  else []

/-- Transitive reachability from the seed along the links of successfully
fetched pages; this is the link graph the crawl explores. -/
inductive Reachable (web : String → Option (List Node)) (seed : String) : String → Prop
  | start : Reachable web seed seed
  | step {u v : String} : Reachable web seed u → v ∈ pageLinks web u →
      Reachable web seed v

/-! ## Fetcher lemmas -/

/-- If every attempt in the window times out, the loop exhausts its budget. -/
theorem scrapLoop_all_timeout (env : Nat → Attempt) :
    ∀ (n i : Nat), (∀ j, j < n → env (i + j) = Attempt.timeoutErr) →
      scrapLoop env i n = FetchResult.timedOut := by
  intro n
  induction n with
  | zero => intro i _; rfl
  | succ m ih =>
      intro i h
      have h0 : env i = Attempt.timeoutErr := by
        have := h 0 (Nat.succ_pos m)
        simpa using this
      have hrec : ∀ j, j < m → env (i + 1 + j) = Attempt.timeoutErr := by
        intro j hj
        have := h (j + 1) (Nat.succ_lt_succ hj)
        simpa [Nat.add_assoc, Nat.add_comm 1 j] using this
      simp [scrapLoop, h0, ih (i + 1) hrec]

/-- If the first `n` attempts time out and attempt `n` succeeds, any budget
larger than `n` returns the successful body. -/
theorem scrapLoop_success (env : Nat → Attempt) (b : String) :
    ∀ (n i m : Nat), (∀ j, j < n → env (i + j) = Attempt.timeoutErr) →
      env (i + n) = Attempt.success b → n < m →
      scrapLoop env i m = FetchResult.ok b := by
  intro n
  induction n with
  | zero =>
      intro i m _ hs hm
      obtain ⟨m', rfl⟩ := Nat.exists_eq_succ_of_ne_zero (Nat.pos_iff_ne_zero.mp hm)
      have h0 : env i = Attempt.success b := by simpa using hs
      simp [scrapLoop, h0]
  | succ k ih =>
      intro i m h hs hm
      obtain ⟨m', rfl⟩ := Nat.exists_eq_succ_of_ne_zero
        (Nat.pos_iff_ne_zero.mp (Nat.lt_of_le_of_lt (Nat.zero_le _) hm))
      have h0 : env i = Attempt.timeoutErr := by
        have := h 0 (Nat.succ_pos k)
        simpa using this
      have hrec : ∀ j, j < k → env (i + 1 + j) = Attempt.timeoutErr := by
        intro j hj
        have := h (j + 1) (Nat.succ_lt_succ hj)
        simpa [Nat.add_assoc, Nat.add_comm 1 j] using this
      have hs' : env (i + 1 + k) = Attempt.success b := by
        simpa [Nat.add_assoc, Nat.add_comm 1 k] using hs
      simp [scrapLoop, h0, ih (i + 1) m' hrec hs' (Nat.lt_of_succ_lt_succ hm)]

/-- If the first `k` attempts time out and attempt `k` fails for a
non-timeout reason, any budget larger than `k` returns that error at once. -/
theorem scrapLoop_failure (env : Nat → Attempt) (msg : String) :
    ∀ (k i m : Nat), (∀ j, j < k → env (i + j) = Attempt.timeoutErr) →
      env (i + k) = Attempt.failure msg → k < m →
      scrapLoop env i m = FetchResult.err msg := by
  intro k
  induction k with
  | zero =>
      intro i m _ hs hm
      obtain ⟨m', rfl⟩ := Nat.exists_eq_succ_of_ne_zero (Nat.pos_iff_ne_zero.mp hm)
      have h0 : env i = Attempt.failure msg := by simpa using hs
      simp [scrapLoop, h0]
  | succ k' ih =>
      intro i m h hs hm
      obtain ⟨m', rfl⟩ := Nat.exists_eq_succ_of_ne_zero
        (Nat.pos_iff_ne_zero.mp (Nat.lt_of_le_of_lt (Nat.zero_le _) hm))
      have h0 : env i = Attempt.timeoutErr := by
        have := h 0 (Nat.succ_pos k')
        simpa using this
      have hrec : ∀ j, j < k' → env (i + 1 + j) = Attempt.timeoutErr := by
        intro j hj
        have := h (j + 1) (Nat.succ_lt_succ hj)
        simpa [Nat.add_assoc, Nat.add_comm 1 j] using this
      have hs' : env (i + 1 + k') = Attempt.failure msg := by
        simpa [Nat.add_assoc, Nat.add_comm 1 k'] using hs
      simp [scrapLoop, h0, ih (i + 1) m' hrec hs' (Nat.lt_of_succ_lt_succ hm)]

/-- Claim C3: the fetcher retries exactly on timeout.  With a positive retry
budget: (1) if the URL times out on the first `retries - 1` attempts and the
next attempt succeeds, the successful body is returned; (2) if it times out on
all `retries` attempts, the terminal timeout error is returned; (3) a
non-timeout failure on any attempt inside the budget is returned immediately
(no later attempt is consulted). -/
theorem claim_C3_retry_semantics (env : Nat → Attempt) (retries k : Nat)
    (body msg : String) (h : 0 < retries) :
    ((∀ j, j < retries - 1 → env j = Attempt.timeoutErr) →
        env (retries - 1) = Attempt.success body →
        scrap_url env retries = FetchResult.ok body)
    ∧ ((∀ j, j < retries → env j = Attempt.timeoutErr) →
        scrap_url env retries = FetchResult.timedOut)
    ∧ (k < retries → (∀ j, j < k → env j = Attempt.timeoutErr) →
        env k = Attempt.failure msg →
        scrap_url env retries = FetchResult.err msg) := by
  refine ⟨?_, ?_, ?_⟩
  · intro ht hs
    exact scrapLoop_success env body (retries - 1) 0 retries
      (by intro j hj; simpa using ht j hj) (by simpa using hs)
      (Nat.sub_lt h Nat.one_pos)
  · intro ht
    exact scrapLoop_all_timeout env retries 0 (by intro j hj; simpa using ht j hj)
  · intro hk ht hf
    exact scrapLoop_failure env msg k 0 retries
      (by intro j hj; simpa using ht j hj) (by simpa using hf) hk

/-- A concrete environment that times out twice and then succeeds. -/
def envRetryTwice : Nat → Attempt :=
  fun i => if i < 2 then Attempt.timeoutErr else Attempt.success "ok"

/-- Witness for claim C3: with budget 3, two timeouts followed by a success
yield the successful body. -/
theorem claim_C3_witness :
    0 < 3 ∧ scrap_url envRetryTwice 3 = FetchResult.ok "ok" :=
  ⟨by decide,
    (claim_C3_retry_semantics envRetryTwice 3 0 "ok" "" (by decide)).1
      (by decide) (by decide)⟩

/-! ## CSV emptiness (C8) -/

/-- Claim C8: if the crawl ends with zero collected records, the CSV sink
receives nothing at all — no header row and no data rows. -/
theorem claim_C8_csv_emptiness (web : String → Option (List Node))
    (N fuel : Nat) (seed : String)
    (h : (crawlRun web N fuel (initState seed)).enterprises = []) :
    csvOutput ((crawlRun web N fuel (initState seed)).enterprises) = [] := by
  rw [h]; rfl

/-- A web on which every fetch fails. -/
def webFail : String → Option (List Node) := fun _ => none

/-- Witness for claim C8: a run whose every fetch fails collects no records,
and the sink receives nothing. -/
theorem claim_C8_witness :
    (crawlRun webFail 0 1 (initState "https://seed")).enterprises = []
    ∧ csvOutput ((crawlRun webFail 0 1 (initState "https://seed")).enterprises) = [] :=
  ⟨by decide, claim_C8_csv_emptiness webFail 0 1 "https://seed" (by decide)⟩

/-! ## Record-extractor label slicing (C2) -/

/-- A detail page holding one card with a single description block whose text
is `blob`. -/
def descCard (blob : String) : List Node :=
  [Node.elem "div" [("class", "socios-panel-lat")]
    [Node.elem "div" [("class", "socios-descripcion")] [Node.text blob]]]

/-- Appending the empty string is the identity. -/
theorem strAppendEmpty (s : String) : s ++ "" = s := by
  cases s with
  | mk d => show String.mk (d ++ []) = String.mk d; rw [List.append_nil]

/-- Evaluating the record extractor on a one-description card: the name is
empty and the four labelled fields come from processing the blob. -/
theorem extract_descCard (blob : String) :
    extract_enterprise_data (descCard blob)
      = some (processDescription { Enterprise.new with name := "" } blob) := by
  have h : extract_enterprise_data (descCard blob)
      = some (processDescription { Enterprise.new with name := "" } (blob ++ "")) := rfl
  rw [h, strAppendEmpty]

/-- Claim C2 counterexample: on the blob `"Domicilio A Teléfono B"` the claim
predicts `phone` = the trimmed text after `"Teléfono"` to the end of the blob,
namely `"B"` (the phone label occurs at index 12); the extractor instead
leaves `phone` empty, because the address lookup's `drain` removed the tail of
the blob — including the phone label — before the phone lookup ran. -/
theorem claim_C2_counterexample :
    strFind "Domicilio A Teléfono B" "Teléfono" = some 12
    ∧ String.mk (trimChars
        (("Domicilio A Teléfono B").toList.drop (12 + "Teléfono".toList.length))) = "B"
    ∧ extract_enterprise_data (descCard "Domicilio A Teléfono B")
        = some { name := "", address := "A Teléfono B", phone := "",
                 email := "", contact_person := "" }
    ∧ ("B" : String) ≠ "" :=
  ⟨by decide, by decide, by decide, by decide⟩

/-- Claim C2 as amended: the four label lookups run in a fixed order on a
working text that every hit truncates.  The first (address) lookup does search
the full original blob and takes the trimmed tail to the end of the blob; but
a hit truncates the working text to everything up to and including its label,
so the phone lookup searches only that prefix — when the phone label does not
occur there (in particular when it occurs only after the address label), the
phone field is left empty.  A blob containing neither label leaves both
fields empty. -/
theorem claim_C2_amended (blob : String) (i : Nat) :
    (strFind blob "Domicilio" = some i →
      strFind (String.mk (blob.toList.take (i + "Domicilio".toList.length)))
          "Teléfono" = none →
      ∃ e, extract_enterprise_data (descCard blob) = some e
        ∧ e.address
            = String.mk (trimChars (blob.toList.drop (i + "Domicilio".toList.length)))
        ∧ e.phone = "")
    ∧ (strFind blob "Domicilio" = none → strFind blob "Teléfono" = none →
      ∃ e, extract_enterprise_data (descCard blob) = some e
        ∧ e.address = "" ∧ e.phone = "") := by
  constructor
  · intro h1 h2
    have h2' : strFind (String.mk (blob.data.take (i + 9))) "Teléfono" = none := by
      simpa [String.toList] using h2
    refine ⟨_, extract_descCard blob, ?_, ?_⟩
    · simp [processDescription, drainField, h1, h2', String.toList]
    · simp [processDescription, drainField, h1, h2', Enterprise.new, String.toList]
  · intro h1 h2
    refine ⟨_, extract_descCard blob, ?_, ?_⟩
    · simp [processDescription, drainField, h1, h2, Enterprise.new]
    · simp [processDescription, drainField, h1, h2, Enterprise.new]

/-- Witness for the amended claim C2: on `"xDomicilio Calle 1"` the address
label is found at index 1, the phone label is absent from the truncated
working text, and the extractor yields address `"Calle 1"` and empty phone. -/
theorem claim_C2_witness :
    strFind "xDomicilio Calle 1" "Domicilio" = some 1
    ∧ strFind (String.mk (("xDomicilio Calle 1").toList.take
        (1 + "Domicilio".toList.length))) "Teléfono" = none
    ∧ ∃ e, extract_enterprise_data (descCard "xDomicilio Calle 1") = some e
        ∧ e.address = String.mk (trimChars
            (("xDomicilio Calle 1").toList.drop (1 + "Domicilio".toList.length)))
        ∧ e.phone = "" :=
  ⟨by decide, by decide,
    (claim_C2_amended "xDomicilio Calle 1" 1).1 (by decide) (by decide)⟩

/-! ## Absolute-link filter (C7) -/

/-- Any string surviving the extractors' href filter passed the
absolute-scheme test. -/
theorem mem_filterMap_absolute {l : String} {ns : List Node}
    (h : l ∈ ns.filterMap
      (fun a => if isAbsoluteHref (anchorHref a) then some (anchorHref a) else none)) :
    isAbsoluteHref l = true := by
  simp only [List.mem_filterMap] at h
  obtain ⟨a, -, ha⟩ := h
  by_cases hab : isAbsoluteHref (anchorHref a)
  · rw [if_pos hab] at ha
    cases ha
    exact hab
  · rw [if_neg hab] at ha
    cases ha

/-- Passing the filter means starting with one of the two schemes. -/
theorem isAbsoluteHref_starts {l : String} (h : isAbsoluteHref l = true) :
    rustStartsWith l "http://" = true ∨ rustStartsWith l "https://" = true := by
  simpa [isAbsoluteHref, Bool.or_eq_true] using h

/-- A pagination container whose anchors carry a relative href, a javascript
href, and one absolute href. -/
def pagExampleDoc : List Node :=
  [Node.elem "ul" [("class", "pager lfr-pagination-buttons")]
    [Node.elem "li" []
      [ Node.elem "a" [("href", "/relative")] []
      , Node.elem "a" [("href", "javascript:void(0)")] []
      , Node.elem "a" [("href", "https://ok.example/x")] [] ]]]

/-- Member-link anchors carrying a relative href, a javascript href, and one
absolute href. -/
def entExampleDoc : List Node :=
  [Node.elem "div" []
    [ Node.elem "a" [("class", "lm"), ("href", "/relative")] []
    , Node.elem "a" [("class", "lm"), ("href", "javascript:void(0)")] []
    , Node.elem "a" [("class", "lm"), ("href", "https://ok.example/x")] [] ]]

/-- Claim C7: both link extractors keep exactly the matching anchors whose
href starts with `http://` or `https://`: every extracted link starts with one
of the two schemes; the example page with hrefs `/relative`,
`javascript:void(0)` and `https://ok.example/x` yields exactly the absolute
link; and a document with no matching element yields the empty sequence. -/
theorem claim_C7_absolute_link_filter :
    (∀ (doc : List Node) (l : String), l ∈ extract_pagination_links doc →
        rustStartsWith l "http://" = true ∨ rustStartsWith l "https://" = true)
    ∧ (∀ (doc : List Node) (l : String), l ∈ extract_enterprise_links doc →
        rustStartsWith l "http://" = true ∨ rustStartsWith l "https://" = true)
    ∧ extract_pagination_links pagExampleDoc = ["https://ok.example/x"]
    ∧ extract_enterprise_links entExampleDoc = ["https://ok.example/x"]
    ∧ extract_pagination_links ([] : List Node) = []
    ∧ extract_enterprise_links ([] : List Node) = [] := by
  refine ⟨?_, ?_, by decide, by decide, by decide, by decide⟩
  · intro doc l hl
    simp only [extract_pagination_links, List.mem_flatten, List.mem_map] at hl
    obtain ⟨inner, ⟨ul, -, rfl⟩, hmem⟩ := hl
    exact isAbsoluteHref_starts (mem_filterMap_absolute hmem)
  · intro doc l hl
    exact isAbsoluteHref_starts
      (mem_filterMap_absolute (by simpa [extract_enterprise_links] using hl))

/-- Witness for claim C7: the absolute link of the example page is extracted
and starts with an absolute scheme. -/
theorem claim_C7_witness :
    "https://ok.example/x" ∈ extract_pagination_links pagExampleDoc
    ∧ (rustStartsWith "https://ok.example/x" "http://" = true
        ∨ rustStartsWith "https://ok.example/x" "https://" = true) :=
  ⟨by decide,
    claim_C7_absolute_link_filter.1 pagExampleDoc "https://ok.example/x" (by decide)⟩

/-! ## Record-extractor totality and missing labels (C6) -/

/-- `listFind` returns `none` exactly when the needle does not occur as a
contiguous substring (an infix). -/
theorem listFind_eq_none_iff (needle : List Char) :
    ∀ hay : List Char, listFind needle hay = none ↔ ¬ needle <:+: hay := by
  intro hay
  induction hay with
  | nil =>
      cases hb : needle.isPrefixOf ([] : List Char) with
      | true =>
          have hp : needle <+: ([] : List Char) := List.isPrefixOf_iff_prefix.mp hb
          simp [listFind, hb, hp.isInfix]
      | false =>
          have hne : needle ≠ [] := by
            intro hc
            rw [hc] at hb
            simp [List.isPrefixOf] at hb
          simp [listFind, hb, List.infix_nil, hne]
  | cons c t ih =>
      cases hb : needle.isPrefixOf (c :: t) with
      | true =>
          have hp : needle <+: (c :: t) := List.isPrefixOf_iff_prefix.mp hb
          simp [listFind, hb, hp.isInfix]
      | false =>
          have hp : ¬ needle <+: (c :: t) := by
            intro hc
            rw [List.isPrefixOf_iff_prefix.mpr hc] at hb
            cases hb
          simp [listFind, hb, Option.map_eq_none', ih, List.infix_cons_iff, hp]

/-- A label absent from a string is absent from any prefix of it. -/
theorem strFind_none_of_prefix {blob t : String} (lab : String)
    (h : strFind blob lab = none) (hpre : t.toList <+: blob.toList) :
    strFind t lab = none := by
  rw [strFind, listFind_eq_none_iff] at h ⊢
  intro hc
  exact h (hc.trans hpre.isInfix)

/-- The working text left by a label lookup is a prefix of its input. -/
theorem drainField_text_shrinks (text label old : String) :
    (drainField text label old).2.toList <+: text.toList := by
  unfold drainField
  cases hf : strFind text label with
  | some i =>
      simp only []
      exact List.take_prefix _ _
  | none => simp

/-- A missed lookup leaves the field untouched. -/
theorem drainField_none_fst {text label old : String}
    (h : strFind text label = none) : (drainField text label old).1 = old := by
  simp [drainField, h]

/-- A label absent from the blob leaves `address` untouched. -/
theorem processDescription_address (e : Enterprise) (blob : String)
    (h : strFind blob "Domicilio" = none) :
    (processDescription e blob).address = e.address := by
  simp [processDescription, drainField_none_fst h]

/-- A label absent from the blob leaves `phone` untouched (the phone lookup
runs on a prefix of the blob). -/
theorem processDescription_phone (e : Enterprise) (blob : String)
    (h : strFind blob "Teléfono" = none) :
    (processDescription e blob).phone = e.phone := by
  have h1 := strFind_none_of_prefix "Teléfono" h
    (drainField_text_shrinks blob "Domicilio" e.address)
  simp [processDescription, drainField_none_fst h1]

/-- A label absent from the blob leaves `email` untouched. -/
theorem processDescription_email (e : Enterprise) (blob : String)
    (h : strFind blob "Correo electrónico" = none) :
    (processDescription e blob).email = e.email := by
  have p1 := drainField_text_shrinks blob "Domicilio" e.address
  have p2 := drainField_text_shrinks
    (drainField blob "Domicilio" e.address).2 "Teléfono" e.phone
  have h1 := strFind_none_of_prefix "Correo electrónico" h (p2.trans p1)
  simp [processDescription, drainField_none_fst h1]

/-- A label absent from the blob leaves `contact_person` untouched. -/
theorem processDescription_contact (e : Enterprise) (blob : String)
    (h : strFind blob "Persona de contacto" = none) :
    (processDescription e blob).contact_person = e.contact_person := by
  have p1 := drainField_text_shrinks blob "Domicilio" e.address
  have p2 := drainField_text_shrinks
    (drainField blob "Domicilio" e.address).2 "Teléfono" e.phone
  have p3 := drainField_text_shrinks
    (drainField (drainField blob "Domicilio" e.address).2 "Teléfono" e.phone).2
    "Correo electrónico" e.email
  have h1 := strFind_none_of_prefix "Persona de contacto" h ((p3.trans p2).trans p1)
  simp [processDescription, drainField_none_fst h1]

/-- A field projection preserved by each description step is preserved by the
whole description loop. -/
theorem foldl_preserve {α : Type} (f : Enterprise → α) :
    ∀ (blobs : List String) (e : Enterprise),
      (∀ (e' : Enterprise) (blob : String), blob ∈ blobs →
        f (processDescription e' blob) = f e') →
      f (blobs.foldl processDescription e) = f e := by
  intro blobs
  induction blobs with
  | nil => intro e _; rfl
  | cons b bs ih =>
      intro e h
      rw [List.foldl_cons, ih _ (fun e' x hx => h e' x (List.mem_cons_of_mem _ hx)),
        h e b (List.mem_cons_self _ _)]

/-- Claim C6: the record extractor returns no record exactly when the document
has zero detail cards; with at least one card it returns exactly one record,
and a field whose label is not found in the card's description blobs is left
as the empty string — extraction is total and never fails. -/
theorem claim_C6_extractor_totality (doc : List Node) :
    (extract_enterprise_data doc = none ↔ cardsOf doc = [])
    ∧ (∀ card rest, cardsOf doc = card :: rest →
        ∃ e, extract_enterprise_data doc = some e
          ∧ ((∀ blob ∈ cardDescriptionBlobs card, strFind blob "Domicilio" = none) →
              e.address = "")
          ∧ ((∀ blob ∈ cardDescriptionBlobs card, strFind blob "Teléfono" = none) →
              e.phone = "")
          ∧ ((∀ blob ∈ cardDescriptionBlobs card,
                strFind blob "Correo electrónico" = none) → e.email = "")
          ∧ ((∀ blob ∈ cardDescriptionBlobs card,
                strFind blob "Persona de contacto" = none) →
              e.contact_person = "")) := by
  constructor
  · unfold extract_enterprise_data
    cases h : cardsOf doc with
    | nil => simp
    | cons card rest => simp
  · intro card rest h
    refine ⟨(cardDescriptionBlobs card).foldl processDescription
        { Enterprise.new with name := cardName card }, ?_, ?_, ?_, ?_, ?_⟩
    · unfold extract_enterprise_data
      rw [h]
    · intro hlab
      rw [foldl_preserve Enterprise.address _ _
        (fun e' x hx => processDescription_address e' x (hlab x hx))]
      rfl
    · intro hlab
      rw [foldl_preserve Enterprise.phone _ _
        (fun e' x hx => processDescription_phone e' x (hlab x hx))]
      rfl
    · intro hlab
      rw [foldl_preserve Enterprise.email _ _
        (fun e' x hx => processDescription_email e' x (hlab x hx))]
      rfl
    · intro hlab
      rw [foldl_preserve Enterprise.contact_person _ _
        (fun e' x hx => processDescription_contact e' x (hlab x hx))]
      rfl

/-- Witness for claim C6: one card whose single description blob contains no
label yields exactly one record with an empty address. -/
theorem claim_C6_witness :
    cardsOf (descCard "hello")
        = [Node.elem "div" [("class", "socios-panel-lat")]
            [Node.elem "div" [("class", "socios-descripcion")] [Node.text "hello"]]]
    ∧ ∃ e, extract_enterprise_data (descCard "hello") = some e ∧ e.address = "" := by
  refine ⟨rfl, ?_⟩
  obtain ⟨e, he, ha, -, -, -⟩ :=
    (claim_C6_extractor_totality (descCard "hello")).2 _ [] rfl
  exact ⟨e, he, ha (by decide)⟩

/-! ## Frontier enqueue lemmas -/

/-- The enqueue loop appends a duplicate-free batch of fresh links (the same
batch to the frontier and to the ghost log), in input order. -/
theorem enqueueAll_shape (visited : List String) :
    ∀ (ls fr log : List String),
      ∃ t, enqueueAll visited (fr, log) ls = (fr ++ t, log ++ t)
        ∧ t.Sublist ls ∧ t.Nodup
        ∧ (∀ x ∈ t, x ∉ visited ∧ x ∉ fr) := by
  intro ls
  induction ls with
  | nil =>
      intro fr log
      exact ⟨[], by simp [enqueueAll], List.nil_sublist _, List.nodup_nil, by simp⟩
  | cons a as ih =>
      intro fr log
      by_cases ha : a ∈ visited ∨ a ∈ fr
      · obtain ⟨t, ht, hs, hn, hf⟩ := ih fr log
        refine ⟨t, ?_, hs.cons _, hn, hf⟩
        rw [show enqueueAll visited (fr, log) (a :: as)
            = enqueueAll visited (fr, log) as from by simp [enqueueAll, ha]]
        exact ht
      · obtain ⟨t, ht, hs, hn, hf⟩ := ih (fr ++ [a]) (log ++ [a])
        push_neg at ha
        refine ⟨a :: t, ?_, hs.cons₂ a, ?_, ?_⟩
        · rw [show enqueueAll visited (fr, log) (a :: as)
              = enqueueAll visited (fr ++ [a], log ++ [a]) as from by
                simp [enqueueAll, ha.1, ha.2]]
          rw [ht]
          simp
        · refine List.nodup_cons.mpr ⟨?_, hn⟩
          intro hc
          exact (hf a hc).2 (by simp)
        · intro x hx
          rcases List.mem_cons.mp hx with rfl | hx'
          · exact ⟨ha.1, ha.2⟩
          · have h1 := hf x hx'
            exact ⟨h1.1, fun hc => h1.2 (by simp [hc])⟩

/-- Every offered link ends up in the visited set or on the new frontier. -/
theorem enqueueAll_covers (visited : List String) :
    ∀ (ls fr log : List String) (l : String), l ∈ ls →
      l ∈ visited ∨ l ∈ (enqueueAll visited (fr, log) ls).1 := by
  intro ls
  induction ls with
  | nil => intro fr log l hl; cases hl
  | cons a as ih =>
      intro fr log l hl
      by_cases ha : a ∈ visited ∨ a ∈ fr
      · rw [show enqueueAll visited (fr, log) (a :: as)
            = enqueueAll visited (fr, log) as from by simp [enqueueAll, ha]]
        rcases List.mem_cons.mp hl with rfl | hl'
        · rcases ha with h | h
          · exact Or.inl h
          · right
            obtain ⟨t, ht, -, -, -⟩ := enqueueAll_shape visited as fr log
            rw [ht]
            exact List.mem_append_left _ h
        · exact ih fr log l hl'
      · rw [show enqueueAll visited (fr, log) (a :: as)
            = enqueueAll visited (fr ++ [a], log ++ [a]) as from by
              push_neg at ha
              simp [enqueueAll, ha.1, ha.2]]
        rcases List.mem_cons.mp hl with rfl | hl'
        · right
          obtain ⟨t, ht, -, -, -⟩ := enqueueAll_shape visited as (fr ++ [l]) (log ++ [l])
          rw [ht]
          exact List.mem_append_left _ (by simp)
        · exact ih (fr ++ [a]) (log ++ [a]) l hl'

/-- When the offered links are pairwise distinct and none is already known,
the whole batch is appended verbatim. -/
theorem enqueueAll_fresh (visited : List String) :
    ∀ (ls fr log : List String), ls.Nodup →
      (∀ l ∈ ls, l ∉ visited ∧ l ∉ fr) →
      enqueueAll visited (fr, log) ls = (fr ++ ls, log ++ ls) := by
  intro ls
  induction ls with
  | nil => intro fr log _ _; simp [enqueueAll]
  | cons a as ih =>
      intro fr log hnd hf
      have ha := hf a (List.mem_cons_self _ _)
      rw [show enqueueAll visited (fr, log) (a :: as)
          = enqueueAll visited (fr ++ [a], log ++ [a]) as from by
            simp [enqueueAll, ha.1, ha.2]]
      rw [ih (fr ++ [a]) (log ++ [a]) (List.nodup_cons.mp hnd).2 ?_]
      · simp
      · intro l hl
        have h1 := hf l (List.mem_cons_of_mem _ hl)
        refine ⟨h1.1, ?_⟩
        intro hc
        rcases List.mem_append.mp hc with h2 | h2
        · exact h1.2 h2
        · have h3 : l = a := by simpa using h2
          exact (List.nodup_cons.mp hnd).1 (h3 ▸ hl)

/-- A URL already in the visited set is never pushed onto the frontier. -/
theorem enqueueAll_avoid (visited : List String) (x : String) (hx : x ∈ visited) :
    ∀ (ls fr log : List String), x ∉ fr →
      x ∉ (enqueueAll visited (fr, log) ls).1 := by
  intro ls fr log hfr
  obtain ⟨t, ht, -, -, hf⟩ := enqueueAll_shape visited ls fr log
  rw [ht]
  intro hc
  rcases List.mem_append.mp hc with h | h
  · exact hfr h
  · exact (hf x h).1 hx

/-! ## Link enqueue order (C10) -/

/-- Claim C10: on a successful fetch the new links are appended at the
frontier tail as a subsequence of "all pagination links (in document order)
followed by all enterprise links (in document order)"; when all links are
distinct and fresh the appended batch is exactly that concatenation, so an
enterprise link is enqueued after every pagination link of the same page even
if it appears earlier in the document. -/
theorem claim_C10_link_order (web : String → Option (List Node)) (s : CrawlState)
    (url : String) (rest : List String) (dom : List Node)
    (hfr : s.frontier = url :: rest) (hw : web url = some dom) :
    (∃ t, (processUrl web s url rest).frontier = rest ++ t
        ∧ t.Sublist (extract_pagination_links dom ++ extract_enterprise_links dom))
    ∧ ((extract_pagination_links dom ++ extract_enterprise_links dom).Nodup →
        (∀ l ∈ extract_pagination_links dom ++ extract_enterprise_links dom,
            l ∉ s.visited ∧ l ∉ rest) →
        (processUrl web s url rest).frontier
          = rest ++ (extract_pagination_links dom ++ extract_enterprise_links dom)) := by
  constructor
  · obtain ⟨t, ht, hs, -, -⟩ := enqueueAll_shape s.visited
      (extract_pagination_links dom ++ extract_enterprise_links dom) rest s.enqLog
    exact ⟨t, by simp [processUrl, hw, ht], hs⟩
  · intro hnd hf
    have h1 := enqueueAll_fresh s.visited
      (extract_pagination_links dom ++ extract_enterprise_links dom) rest s.enqLog hnd hf
    simp [processUrl, hw, h1]

/-- A page whose enterprise link precedes its pagination container in
document order. -/
def linkPageDoc : List Node :=
  [ Node.elem "a" [("class", "lm"), ("href", "https://e/1")] []
  , Node.elem "ul" [("class", "pager lfr-pagination-buttons")]
      [Node.elem "a" [("href", "https://p/1")] []] ]

/-- A web serving `linkPageDoc` everywhere. -/
def webLinks : String → Option (List Node) := fun _ => some linkPageDoc

/-- Witness for claim C10: the pagination link is enqueued before the
enterprise link although the enterprise anchor appears first in the page. -/
theorem claim_C10_witness :
    (initState "https://s").frontier = "https://s" :: []
    ∧ webLinks "https://s" = some linkPageDoc
    ∧ extract_pagination_links linkPageDoc = ["https://p/1"]
    ∧ extract_enterprise_links linkPageDoc = ["https://e/1"]
    ∧ (processUrl webLinks (initState "https://s") "https://s" []).frontier
        = [] ++ (extract_pagination_links linkPageDoc
            ++ extract_enterprise_links linkPageDoc) :=
  ⟨rfl, rfl, by decide, by decide,
    (claim_C10_link_order webLinks (initState "https://s") "https://s" [] linkPageDoc
      rfl rfl).2 (by decide) (by decide)⟩

/-! ## Record budget cutoff (C4) -/

/-- Claim C4: the budget check runs right after the iteration that appended a
record — once `max_records > 0` records have been collected the loop returns
immediately, leaving the remaining frontier unfetched; and with budget 0 the
cutoff never triggers (the loop always continues to the next iteration). -/
theorem claim_C4_budget_cutoff (web : String → Option (List Node))
    (N fuel : Nat) (s : CrawlState) (url : String) (rest : List String)
    (hfr : s.frontier = url :: rest) :
    (0 < N → N ≤ (processUrl web s url rest).enterprises.length →
        crawlRun web N (fuel + 1) s = processUrl web s url rest)
    ∧ crawlRun web 0 (fuel + 1) s = crawlRun web 0 fuel (processUrl web s url rest) := by
  constructor
  · intro hN hlen
    simp [crawlRun, hfr, hN, hlen]
  · simp [crawlRun, hfr]

/-- A detail page carrying one record and one enterprise link. -/
def recordPageDoc : List Node :=
  [ Node.elem "a" [("class", "lm"), ("href", "https://next")] []
  , Node.elem "div" [("class", "socios-panel-lat")]
      [ Node.elem "h2" [("class", "tit-soc")] [Node.text "ACME"]
      , Node.elem "div" [("class", "socios-descripcion")]
          [Node.text "Domicilio Calle 1"] ] ]

/-- A web serving `recordPageDoc` everywhere. -/
def webRecords : String → Option (List Node) := fun _ => some recordPageDoc

/-- Witness for claim C4: with budget 1 the run stops right after the first
record even though the frontier is still non-empty. -/
theorem claim_C4_witness :
    (initState "https://s").frontier = "https://s" :: []
    ∧ 0 < 1
    ∧ 1 ≤ (processUrl webRecords (initState "https://s") "https://s" []).enterprises.length
    ∧ (processUrl webRecords (initState "https://s") "https://s" []).frontier ≠ []
    ∧ crawlRun webRecords 1 (5 + 1) (initState "https://s")
        = processUrl webRecords (initState "https://s") "https://s" [] :=
  ⟨rfl, by decide, by decide, by decide,
    (claim_C4_budget_cutoff webRecords 1 5 (initState "https://s") "https://s" []
      rfl).1 (by decide) (by decide)⟩

/-! ## Fetch failure handling (C9) -/

/-- Once a URL sits in the visited set and off the frontier, the rest of the
run never fetches it again: its ghost fetch-log count stays constant, it stays
visited and it never reappears on the frontier. -/
theorem crawlRun_no_refetch (web : String → Option (List Node)) (N : Nat) (x : String) :
    ∀ (fuel : Nat) (s : CrawlState), x ∈ s.visited → x ∉ s.frontier →
      (crawlRun web N fuel s).fetchLog.count x = s.fetchLog.count x
      ∧ x ∈ (crawlRun web N fuel s).visited
      ∧ x ∉ (crawlRun web N fuel s).frontier := by
  intro fuel
  induction fuel with
  | zero => intro s hv hf; exact ⟨rfl, hv, hf⟩
  | succ n ih =>
      intro s hv hf
      cases hfr : s.frontier with
      | nil =>
          have hrun : crawlRun web N (n + 1) s = s := by simp [crawlRun, hfr]
          rw [hrun]
          exact ⟨rfl, hv, hf⟩
      | cons url rest =>
          have hxu : x ≠ url := by
            intro hc
            exact hf (by rw [hfr, hc]; exact List.mem_cons_self _ _)
          have hxrest : x ∉ rest := by
            intro hc
            exact hf (by rw [hfr]; exact List.mem_cons_of_mem _ hc)
          have hv' : x ∈ (processUrl web s url rest).visited := by
            cases hw : web url <;> simp [processUrl, hw] <;> exact Or.inl hv
          have hf' : x ∉ (processUrl web s url rest).frontier := by
            cases hw : web url with
            | none => simpa [processUrl, hw] using hxrest
            | some dom =>
                simp only [processUrl, hw]
                exact enqueueAll_avoid s.visited x hv _ rest s.enqLog hxrest
          have hcount : (processUrl web s url rest).fetchLog.count x
              = s.fetchLog.count x := by
            cases hw : web url <;>
              simp [processUrl, hw, List.count_append, List.count_cons, Ne.symm hxu]
          by_cases hb : 0 < N ∧ N ≤ (processUrl web s url rest).enterprises.length
          · rw [show crawlRun web N (n + 1) s = processUrl web s url rest from by
              simp [crawlRun, hfr, hb]]
            exact ⟨hcount, hv', hf'⟩
          · rw [show crawlRun web N (n + 1) s
                = crawlRun web N n (processUrl web s url rest) from by
              simp [crawlRun, hfr, hb]]
            obtain ⟨h1, h2, h3⟩ := ih (processUrl web s url rest) hv' hf'
            exact ⟨h1.trans hcount, h2, h3⟩

/-- Claim C9: when the fetch of a dequeued URL fails, the engine enqueues
nothing for it, still appends it to the visited list, keeps the collected
records unchanged, continues the loop with the next frontier entry, and never
fetches that URL again for the rest of the run. -/
theorem claim_C9_fetch_failure (web : String → Option (List Node))
    (N fuel : Nat) (s : CrawlState) (url : String) (rest : List String)
    (hfr : s.frontier = url :: rest) (hw : web url = none)
    (hrest : url ∉ rest) :
    (processUrl web s url rest).frontier = rest
    ∧ (processUrl web s url rest).visited = s.visited ++ [url]
    ∧ (processUrl web s url rest).enterprises = s.enterprises
    ∧ crawlRun web 0 (fuel + 1) s = crawlRun web 0 fuel (processUrl web s url rest)
    ∧ (∀ f, (crawlRun web N f (processUrl web s url rest)).fetchLog.count url
        = (processUrl web s url rest).fetchLog.count url) := by
  refine ⟨by simp [processUrl, hw], by simp [processUrl, hw],
    by simp [processUrl, hw], by simp [crawlRun, hfr], ?_⟩
  intro f
  have hv' : url ∈ (processUrl web s url rest).visited := by
    simp [processUrl, hw]
  have hf' : url ∉ (processUrl web s url rest).frontier := by
    simpa [processUrl, hw] using hrest
  exact (crawlRun_no_refetch web N url f _ hv' hf').1

/-- Witness for claim C9: a failing seed fetch leaves no records, moves the
seed to visited, and the seed is never fetched again. -/
theorem claim_C9_witness :
    (initState "https://s").frontier = "https://s" :: []
    ∧ webFail "https://s" = none
    ∧ (processUrl webFail (initState "https://s") "https://s" []).visited
        = [] ++ ["https://s"]
    ∧ (∀ f, (crawlRun webFail 7 f
          (processUrl webFail (initState "https://s") "https://s" [])).fetchLog.count
            "https://s"
        = (processUrl webFail (initState "https://s") "https://s" []).fetchLog.count
            "https://s") := by
  obtain ⟨-, h2, -, -, h5⟩ := claim_C9_fetch_failure webFail 7 0
    (initState "https://s") "https://s" [] rfl rfl (by decide)
  exact ⟨rfl, rfl, h2, h5⟩

/-! ## Crawl-loop invariant (C1, C5) -/

/-- The loop invariant of the crawl engine, at loop boundaries: the visited
list and the frontier are jointly duplicate-free, every URL was enqueued at
most once (ghost log), logged URLs are still in the visited list or frontier,
every known URL is reachable from the seed, the links of every visited page
are already known, and the seed is known. -/
structure GoodState (web : String → Option (List Node)) (seed : String)
    (s : CrawlState) : Prop where
  nodup : (s.visited ++ s.frontier).Nodup
  lognd : s.enqLog.Nodup
  logsub : ∀ x ∈ s.enqLog, x ∈ s.visited ∨ x ∈ s.frontier
  vis_reach : ∀ x ∈ s.visited, Reachable web seed x
  fro_reach : ∀ x ∈ s.frontier, Reachable web seed x
  closure : ∀ u ∈ s.visited, ∀ l ∈ pageLinks web u, l ∈ s.visited ∨ l ∈ s.frontier
  seed_mem : seed ∈ s.visited ∨ seed ∈ s.frontier

/-- The initial state satisfies the invariant. -/
theorem initState_good (web : String → Option (List Node)) (seed : String) :
    GoodState web seed (initState seed) := by
  refine ⟨?_, ?_, ?_, ?_, ?_, ?_, ?_⟩
  · simp [initState]
  · simp [initState]
  · intro x hx
    simp only [initState] at hx ⊢
    right
    exact hx
  · intro x hx
    simp [initState] at hx
  · intro x hx
    simp only [initState] at hx
    rcases List.mem_singleton.mp hx with rfl
    exact Reachable.start
  · intro u hu
    simp [initState] at hu
  · right
    simp [initState]

/-- One crawl iteration preserves the invariant, provided the page of the
popped URL does not link to that URL itself; the popped URL moves to the end
of the visited list. -/
theorem processUrl_good (web : String → Option (List Node)) (seed : String)
    {s : CrawlState} {url : String} {rest : List String}
    (hfr : s.frontier = url :: rest)
    (hg : GoodState web seed s)
    (hns : url ∉ pageLinks web url) :
    GoodState web seed (processUrl web s url rest)
    ∧ (processUrl web s url rest).visited = s.visited ++ [url] := by
  have hurl_reach : Reachable web seed url :=
    hg.fro_reach url (by rw [hfr]; exact List.mem_cons_self _ _)
  have hnd' : (s.visited ++ url :: rest).Nodup := by rw [← hfr]; exact hg.nodup
  have hfro' : ∀ x ∈ rest, Reachable web seed x := fun x hx =>
    hg.fro_reach x (by rw [hfr]; exact List.mem_cons_of_mem _ hx)
  cases hw : web url with
  | none =>
      have hlinks : pageLinks web url = [] := by simp [pageLinks, hw]
      have hfr1 : (processUrl web s url rest).frontier = rest := by
        simp [processUrl, hw]
      have hvi1 : (processUrl web s url rest).visited = s.visited ++ [url] := by
        simp [processUrl, hw]
      have hlg1 : (processUrl web s url rest).enqLog = s.enqLog := by
        simp [processUrl, hw]
      refine ⟨⟨?_, ?_, ?_, ?_, ?_, ?_, ?_⟩, hvi1⟩
      · rw [hfr1, hvi1, List.append_assoc]
        exact hnd'
      · rw [hlg1]; exact hg.lognd
      · intro x hx
        rw [hlg1] at hx
        rw [hfr1, hvi1]
        rcases hg.logsub x hx with h | h
        · exact Or.inl (List.mem_append_left _ h)
        · rw [hfr] at h
          rcases List.mem_cons.mp h with rfl | h'
          · exact Or.inl (List.mem_append_right _ (by simp))
          · exact Or.inr h'
      · intro x hx
        rw [hvi1] at hx
        rcases List.mem_append.mp hx with h | h
        · exact hg.vis_reach x h
        · rcases List.mem_singleton.mp h with rfl
          exact hurl_reach
      · intro x hx
        rw [hfr1] at hx
        exact hfro' x hx
      · intro u hu l hl
        rw [hvi1] at hu
        rw [hvi1, hfr1]
        rcases List.mem_append.mp hu with h | h
        · rcases hg.closure u h l hl with h2 | h2
          · exact Or.inl (List.mem_append_left _ h2)
          · rw [hfr] at h2
            rcases List.mem_cons.mp h2 with rfl | h3
            · exact Or.inl (List.mem_append_right _ (by simp))
            · exact Or.inr h3
        · rcases List.mem_singleton.mp h with rfl
          rw [hlinks] at hl
          cases hl
      · rw [hvi1, hfr1]
        rcases hg.seed_mem with h | h
        · exact Or.inl (List.mem_append_left _ h)
        · rw [hfr] at h
          rcases List.mem_cons.mp h with rfl | h'
          · exact Or.inl (List.mem_append_right _ (by simp))
          · exact Or.inr h'
  | some dom =>
      have hL : pageLinks web url
          = extract_pagination_links dom ++ extract_enterprise_links dom := by
        simp [pageLinks, hw]
      obtain ⟨t, ht, hsub, htnd, htf⟩ := enqueueAll_shape s.visited
        (extract_pagination_links dom ++ extract_enterprise_links dom) rest s.enqLog
      have hfr1 : (processUrl web s url rest).frontier = rest ++ t := by
        simp [processUrl, hw, ht]
      have hvi1 : (processUrl web s url rest).visited = s.visited ++ [url] := by
        simp [processUrl, hw]
      have hlg1 : (processUrl web s url rest).enqLog = s.enqLog ++ t := by
        simp [processUrl, hw, ht]
      have htL : ∀ x ∈ t, x ∈ pageLinks web url := by
        intro x hx
        rw [hL]
        exact hsub.subset hx
      have htu : ∀ x ∈ t, x ≠ url := by
        intro x hx hc
        exact hns (hc ▸ htL x hx)
      have htreach : ∀ x ∈ t, Reachable web seed x := fun x hx =>
        Reachable.step hurl_reach (htL x hx)
      have htlog : ∀ x ∈ t, x ∉ s.enqLog := by
        intro x hx hc
        rcases hg.logsub x hc with h | h
        · exact (htf x hx).1 h
        · rw [hfr] at h
          rcases List.mem_cons.mp h with rfl | h'
          · exact htu x hx rfl
          · exact (htf x hx).2 h'
      refine ⟨⟨?_, ?_, ?_, ?_, ?_, ?_, ?_⟩, hvi1⟩
      · rw [hfr1, hvi1]
        have hbase : ((s.visited ++ url :: rest) ++ t).Nodup := by
          refine List.nodup_append.mpr ⟨hnd', htnd, ?_⟩
          intro a ha hat
          rcases List.mem_append.mp ha with h | h
          · exact (htf a hat).1 h
          · rcases List.mem_cons.mp h with rfl | h'
            · exact htu a hat rfl
            · exact (htf a hat).2 h'
        simpa [List.append_assoc] using hbase
      · rw [hlg1]
        refine List.nodup_append.mpr ⟨hg.lognd, htnd, ?_⟩
        intro a ha hat
        exact htlog a hat ha
      · intro x hx
        rw [hlg1] at hx
        rw [hvi1, hfr1]
        rcases List.mem_append.mp hx with h | h
        · rcases hg.logsub x h with h2 | h2
          · exact Or.inl (List.mem_append_left _ h2)
          · rw [hfr] at h2
            rcases List.mem_cons.mp h2 with rfl | h3
            · exact Or.inl (List.mem_append_right _ (by simp))
            · exact Or.inr (List.mem_append_left _ h3)
        · exact Or.inr (List.mem_append_right _ h)
      · intro x hx
        rw [hvi1] at hx
        rcases List.mem_append.mp hx with h | h
        · exact hg.vis_reach x h
        · rcases List.mem_singleton.mp h with rfl
          exact hurl_reach
      · intro x hx
        rw [hfr1] at hx
        rcases List.mem_append.mp hx with h | h
        · exact hfro' x h
        · exact htreach x h
      · intro u hu l hl
        rw [hvi1] at hu
        rw [hvi1, hfr1]
        rcases List.mem_append.mp hu with h | h
        · rcases hg.closure u h l hl with h2 | h2
          · exact Or.inl (List.mem_append_left _ h2)
          · rw [hfr] at h2
            rcases List.mem_cons.mp h2 with rfl | h3
            · exact Or.inl (List.mem_append_right _ (by simp))
            · exact Or.inr (List.mem_append_left _ h3)
        · rcases List.mem_singleton.mp h with rfl
          rw [hL] at hl
          rcases enqueueAll_covers s.visited
            (extract_pagination_links dom ++ extract_enterprise_links dom)
            rest s.enqLog l hl with h2 | h2
          · exact Or.inl (List.mem_append_left _ h2)
          · rw [ht] at h2
            exact Or.inr h2
      · rw [hvi1, hfr1]
        rcases hg.seed_mem with h | h
        · exact Or.inl (List.mem_append_left _ h)
        · rw [hfr] at h
          rcases List.mem_cons.mp h with rfl | h'
          · exact Or.inl (List.mem_append_right _ (by simp))
          · exact Or.inr (List.mem_append_left _ h')

/-- The invariant is preserved by any number of crawl iterations, for any
record budget, provided no reachable page links to itself. -/
theorem crawlRun_good (web : String → Option (List Node)) (seed : String) (N : Nat)
    (hns : ∀ u, Reachable web seed u → u ∉ pageLinks web u) :
    ∀ (fuel : Nat) (s : CrawlState), GoodState web seed s →
      GoodState web seed (crawlRun web N fuel s) := by
  intro fuel
  induction fuel with
  | zero => intro s hg; exact hg
  | succ n ih =>
      intro s hg
      cases hfr : s.frontier with
      | nil =>
          rw [show crawlRun web N (n + 1) s = s from by simp [crawlRun, hfr]]
          exact hg
      | cons url rest =>
          have hr : Reachable web seed url :=
            hg.fro_reach url (by rw [hfr]; exact List.mem_cons_self _ _)
          have hstep := (processUrl_good web seed hfr hg (hns url hr)).1
          by_cases hb : 0 < N ∧ N ≤ (processUrl web s url rest).enterprises.length
          · rw [show crawlRun web N (n + 1) s = processUrl web s url rest from by
              simp [crawlRun, hfr, hb]]
            exact hstep
          · rw [show crawlRun web N (n + 1) s
                = crawlRun web N n (processUrl web s url rest) from by
              simp [crawlRun, hfr, hb]]
            exact ih _ hstep

/-- Claim C1 as amended: provided no fetched page lists its own URL among its
extracted links (true in particular for any acyclic site), every URL is
enqueued at most once over the whole run (the ghost enqueue log stays
duplicate-free), no URL appears twice in the visited list, and at every loop
boundary no URL is in the frontier and the visited list at once. -/
theorem claim_C1_frontier_dedup (web : String → Option (List Node))
    (seed : String) (N fuel : Nat)
    (hns : ∀ u, u ∉ pageLinks web u) :
    (crawlRun web N fuel (initState seed)).enqLog.Nodup
    ∧ (crawlRun web N fuel (initState seed)).visited.Nodup
    ∧ ∀ x, ¬ (x ∈ (crawlRun web N fuel (initState seed)).frontier
          ∧ x ∈ (crawlRun web N fuel (initState seed)).visited) := by
  have hg := crawlRun_good web seed N (fun u _ => hns u) fuel (initState seed)
    (initState_good web seed)
  refine ⟨hg.lognd, hg.nodup.of_append_left, ?_⟩
  rintro x ⟨hxf, hxv⟩
  exact (List.nodup_append.mp hg.nodup).2.2 hxv hxf

/-- A web on which every page links to its own URL `https://s`. -/
def webSelf : String → Option (List Node) := fun _ =>
  some [Node.elem "a" [("class", "lm"), ("href", "https://s")] []]

/-- Claim C1 counterexample: on a self-linking page the seed URL is enqueued
twice — the link check runs before the popped URL is pushed to the visited
list — so the seed ends up twice in the visited list. -/
theorem claim_C1_counterexample :
    (crawlRun webSelf 0 2 (initState "https://s")).enqLog
        = ["https://s", "https://s"]
    ∧ (crawlRun webSelf 0 2 (initState "https://s")).visited
        = ["https://s", "https://s"]
    ∧ ¬ (crawlRun webSelf 0 2 (initState "https://s")).visited.Nodup :=
  ⟨by decide, by decide, by decide⟩

/-- Witness for the amended claim C1: on a linkless web the visited list of a
run is duplicate-free. -/
theorem claim_C1_witness :
    (∀ u, u ∉ pageLinks webFail u)
    ∧ (crawlRun webFail 0 3 (initState "https://s")).visited.Nodup :=
  ⟨fun u => by simp [pageLinks, webFail],
    (claim_C1_frontier_dedup webFail "https://s" 0 3
      (fun u => by simp [pageLinks, webFail])).2.1⟩

/-! ## Termination and completeness (C5) -/

/-- Reachable URLs stay inside any link-closed superset of the seed. -/
theorem reachable_mem_R (web : String → Option (List Node)) (seed : String)
    (R : List String) (hseed : seed ∈ R)
    (hclosed : ∀ u ∈ R, ∀ l ∈ pageLinks web u, l ∈ R) :
    ∀ x, Reachable web seed x → x ∈ R := by
  intro x hx
  induction hx with
  | start => exact hseed
  | step hu hl ih => exact hclosed _ ih _ hl

/-- With fuel exceeding the number of URLs not yet visited, the frontier
drains completely. -/
theorem crawlRun_drains (web : String → Option (List Node)) (seed : String)
    (R : List String) (hR : R.Nodup) (hseed : seed ∈ R)
    (hclosed : ∀ u ∈ R, ∀ l ∈ pageLinks web u, l ∈ R)
    (hns : ∀ u, Reachable web seed u → u ∉ pageLinks web u) :
    ∀ (fuel : Nat) (s : CrawlState), GoodState web seed s →
      R.length + 1 ≤ fuel + s.visited.length →
      (crawlRun web 0 fuel s).frontier = [] := by
  intro fuel
  induction fuel with
  | zero =>
      intro s hg hle
      exfalso
      have hsub : s.visited ⊆ R := fun x hx =>
        reachable_mem_R web seed R hseed hclosed x (hg.vis_reach x hx)
      have hlen := (hg.nodup.of_append_left.subperm hsub).length_le
      omega
  | succ n ih =>
      intro s hg hle
      cases hfr : s.frontier with
      | nil =>
          rw [show crawlRun web 0 (n + 1) s = s from by simp [crawlRun, hfr]]
          exact hfr
      | cons url rest =>
          have hr : Reachable web seed url :=
            hg.fro_reach url (by rw [hfr]; exact List.mem_cons_self _ _)
          obtain ⟨hg', hvis⟩ := processUrl_good web seed hfr hg (hns url hr)
          rw [show crawlRun web 0 (n + 1) s
              = crawlRun web 0 n (processUrl web s url rest) from by
            simp [crawlRun, hfr]]
          apply ih _ hg'
          rw [hvis, List.length_append]
          simp only [List.length_singleton]
          omega

/-- Claim C5: on a finite acyclic link graph (given as a duplicate-free,
link-closed URL list `R` containing the seed, acyclicity witnessed by a rank
function that strictly drops along links) and with no record budget, the crawl
terminates within `|R| + 1` iterations with an empty frontier, and the visited
list then holds exactly the URLs reachable from the seed. -/
theorem claim_C5_termination_completeness (web : String → Option (List Node))
    (seed : String) (R : List String) (rank : String → Nat)
    (hR : R.Nodup) (hseed : seed ∈ R)
    (hclosed : ∀ u ∈ R, ∀ l ∈ pageLinks web u, l ∈ R)
    (hacyc : ∀ u ∈ R, ∀ l ∈ pageLinks web u, rank l < rank u) :
    (crawlRun web 0 (R.length + 1) (initState seed)).frontier = []
    ∧ (∀ x, x ∈ (crawlRun web 0 (R.length + 1) (initState seed)).visited
        ↔ Reachable web seed x) := by
  have hns : ∀ u, Reachable web seed u → u ∉ pageLinks web u := by
    intro u hu hc
    exact Nat.lt_irrefl _
      (hacyc u (reachable_mem_R web seed R hseed hclosed u hu) u hc)
  have hgF := crawlRun_good web seed 0 hns (R.length + 1) (initState seed)
    (initState_good web seed)
  have hdrain := crawlRun_drains web seed R hR hseed hclosed hns (R.length + 1)
    (initState seed) (initState_good web seed) (by simp [initState])
  refine ⟨hdrain, ?_⟩
  intro x
  constructor
  · exact hgF.vis_reach x
  · intro hx
    induction hx with
    | start =>
        rcases hgF.seed_mem with h | h
        · exact h
        · rw [hdrain] at h
          cases h
    | step hu hl ih =>
        rcases hgF.closure _ ih _ hl with h | h
        · exact h
        · rw [hdrain] at h
          cases h

/-- A two-page acyclic web: the seed page links to one other page, which
links nowhere. -/
def webTwo : String → Option (List Node) := fun u =>
  if u = "https://a"
  then some [Node.elem "a" [("class", "lm"), ("href", "https://b")] []]
  else some []

/-- Witness for claim C5: the two-page acyclic web drains its frontier within
three iterations. -/
theorem claim_C5_witness :
    (["https://a", "https://b"] : List String).Nodup
    ∧ "https://a" ∈ (["https://a", "https://b"] : List String)
    ∧ (∀ u ∈ (["https://a", "https://b"] : List String),
        ∀ l ∈ pageLinks webTwo u, l ∈ (["https://a", "https://b"] : List String))
    ∧ (crawlRun webTwo 0 (2 + 1) (initState "https://a")).frontier = [] := by
  refine ⟨by decide, by decide, by decide, ?_⟩
  exact (claim_C5_termination_completeness webTwo "https://a"
    ["https://a", "https://b"] (fun u => if u = "https://a" then 1 else 0)
    (by decide) (by decide) (by decide) (by decide)).1
